import Mathlib

/-!
Verification of the rusty-strings-control pitch-to-keystroke pipeline
(src/main.rs).  The development shallowly embeds the pure core of the
program: the autocorrelation pitch estimator, the note quantizer, the
window/hop auto-derivation, the per-frame trigger state machine, the
sliding sample buffer, and the key-sequence parser.  Machine floating
point is modelled by exact rationals; `f32 as usize` casts and
`f32::round` are modelled explicitly.  Transcendental library calls
(`log2`, `cos`) are abstraction points: the fractional MIDI number is
taken as the quantizer input, and the Hann weight is an arbitrary
rational-valued function the theorems quantify over.
-/

/-- Model of Rust `f32::round`: round half away from zero. -/
def rustRound (q : ℚ) : Int :=
  if 0 ≤ q then ⌊q + 1 / 2⌋ else ⌈q - 1 / 2⌉

/-- Model of Rust `(x).round() as usize`: rounding followed by the
saturating float-to-integer cast, which maps negative values to 0. -/
def ratToUsize (q : ℚ) : Nat :=
  (rustRound q).toNat

/-- The pitch-class table `NAMES` of `midi_to_name` (src/main.rs:348). -/
def noteNames : List String :=
  [("C"), ("C#"), ("D"), ("D#"), ("E"), ("F"), ("F#"), ("G"), ("G#"), ("A"), ("A#"), ("B")]

/-- Embedding of `midi_to_name` (src/main.rs:347-354).  Rust `%` and `/`
on `i32` truncate toward zero, hence `Int.tmod` / `Int.tdiv` here. -/
def midi_to_name (midi : Int) : String :=
  noteNames.getD (Int.toNat (Int.tmod (Int.tmod midi 12 + 12) 12)) ("C")
    ++ toString (Int.tdiv midi 12 - 1)

/-- Embedding of `freq_to_note` (src/main.rs:338-345).  The argument is
the fractional MIDI number `69 + 12*log2(f/440)` the source computes
from the frequency `f`; `log2` is transcendental, so the embedding
starts at that value.  Every positive finite `f` yields such a value,
and the map is monotone and onto all of it.  `midi.round()` is
`rustRound`. -/
def freq_to_note (midi : ℚ) : String × ℚ :=
  (midi_to_name (rustRound midi), (midi - (rustRound midi : ℚ)) * 100)

/-- Modelled from the spec: the note-name formula as the specification
states it, with octave `⌊m/12⌋ - 1` (floor division), to be compared
with the source's `midi_to_name`. -/
def midi_to_name_spec (midi : Int) : String :=
  noteNames.getD (Int.toNat ((midi % 12 + 12) % 12)) ("C")
    ++ toString (Int.fdiv midi 12 - 1)

/-- The loop body of `nearest_power_of_two` (src/main.rs:356-360):
`p` starts at 1 and doubles while `p < x`.  The `0 < p` conjunct makes
termination evident; it never fails at the reachable arguments, where
`p` is a positive power of two. -/
def npotAux (x p : Nat) : Nat :=
  if h : 0 < p ∧ p < x then npotAux x (p * 2) else p
termination_by x - p
decreasing_by omega

/-- Embedding of `nearest_power_of_two` (src/main.rs:356-360). -/
def nearest_power_of_two (x : Nat) : Nat :=
  npotAux x 1

/-- Embedding of the window-size resolution (src/main.rs:119-123).
`srDiv20` stands for `(sample_rate as f32 / 20.0) as usize`; for
sample rate 48000 it is exactly 2400. -/
def resolveWindowSize (cfgWindow srDiv20 : Nat) : Nat :=
  if 0 < cfgWindow then cfgWindow
  else min (max (nearest_power_of_two srDiv20) 1024) 8192

/-- Embedding of the hop-size resolution (src/main.rs:124). -/
def resolveHopSize (cfgHop window : Nat) : Nat :=
  if 0 < cfgHop then cfgHop else window / 4

/-- Modelled from the spec: the power of two nearest to `x` (ties to the
lower), as the specification's auto-derivation rule states it, to be
compared with the source's `nearest_power_of_two`. -/
def specNearestPow2 (x : Nat) : Nat :=
  let l := 2 ^ Nat.log 2 x
  let u := if l = x then l else 2 * l
  if x - l ≤ u - x then l else u

/-- Mean of the input window (src/main.rs:270). -/
def meanOf (input : List ℚ) : ℚ :=
  input.sum / input.length

/-- DC removal followed by windowing (src/main.rs:271-276).  `wt n i`
abstracts the transcendental Hann weight `0.5 - 0.5*cos(2*pi*i/(n-1))`;
the safety theorems hold for every weight function. -/
def windowed (wt : Nat → Nat → ℚ) (input : List ℚ) : List ℚ :=
  (List.range input.length).map (fun i => (input.getD i 0 - meanOf input) * wt input.length i)

/-- The windowed energy `energy0` (src/main.rs:287). -/
def energyOf (wt : Nat → Nat → ℚ) (input : List ℚ) : ℚ :=
  ((windowed wt input).map (fun v => v * v)).sum

/-- Autocorrelation numerator at a lag (src/main.rs:293-297). -/
def acNum (x : List ℚ) (lag : Nat) : ℚ :=
  ((List.range (x.length - lag)).map (fun i => x.getD i 0 * x.getD (i + lag) 0)).sum

/-- Autocorrelation denominator at a lag (src/main.rs:293-298). -/
def acDen (x : List ℚ) (lag : Nat) : ℚ :=
  ((List.range (x.length - lag)).map
    (fun i => x.getD i 0 * x.getD i 0 + x.getD (i + lag) 0 * x.getD (i + lag) 0)).sum

/-- The guarded normalized autocorrelation closure `r_at`
(src/main.rs:310-320). -/
def rAt (x : List ℚ) (lag : Nat) : ℚ :=
  if acDen x lag ≤ 1 / 1000000000000 then 0 else 2 * acNum x lag / acDen x lag

/-- The best-lag search loop (src/main.rs:283-305): starts from
`(best_lag, best_r) = (0, 0)`, skips lags whose denominator is below
`1e-12`, and keeps the lag with the strictly largest `r`. -/
def bestLoop (x : List ℚ) (lags : List Nat) : Nat × ℚ :=
  lags.foldl
    (fun b lag =>
      if acDen x lag ≤ 1 / 1000000000000 then b
      else if b.2 < 2 * acNum x lag / acDen x lag then (lag, 2 * acNum x lag / acDen x lag)
      else b)
    (0, 0)

/-- The inclusive lag range `min_lag..=max_lag.min(n-1)` (src/main.rs:290). -/
def lagsOf (n minLag maxLag : Nat) : List Nat :=
  List.range' minLag (min maxLag (n - 1) + 1 - minLag)

/-- `min_lag` (src/main.rs:279). -/
def minLagOf (sampleRate maxHz : ℚ) : Nat :=
  ratToUsize (sampleRate / maxHz)

/-- `max_lag` (src/main.rs:280). -/
def maxLagOf (sampleRate minHz : ℚ) : Nat :=
  ratToUsize (sampleRate / minHz)

/-- The `(best_lag, best_r)` pair produced by the search loop. -/
def bestPair (wt : Nat → Nat → ℚ) (input : List ℚ) (sampleRate minHz maxHz : ℚ) : Nat × ℚ :=
  bestLoop (windowed wt input)
    (lagsOf input.length (minLagOf sampleRate maxHz) (maxLagOf sampleRate minHz))

/-- `r1` of the parabolic refinement (src/main.rs:323). -/
def r1Of (x : List ℚ) (bl : Nat) : ℚ :=
  if 1 < bl then rAt x (bl - 1) else rAt x bl

/-- `r2` of the parabolic refinement (src/main.rs:324). -/
def r2Of (x : List ℚ) (n bl : Nat) : ℚ :=
  if bl + 1 < n then rAt x (bl + 1) else rAt x bl

/-- `delta` of the parabolic refinement, guarded against a near-zero
curvature (src/main.rs:326-329). -/
def deltaOf (x : List ℚ) (n bl : Nat) : ℚ :=
  if 1 / 1000000 < |2 * rAt x bl - r1Of x bl - r2Of x n bl| then
    1 / 2 * (r1Of x bl - r2Of x n bl) / (2 * rAt x bl - r1Of x bl - r2Of x n bl)
  else 0

/-- `est_lag = best_lag + delta.clamp(-1, 1)` (src/main.rs:330). -/
def estLagOf (x : List ℚ) (n bl : Nat) : ℚ :=
  (bl : ℚ) + max (-1 : ℚ) (min (deltaOf x n bl) 1)

/-- The final frequency computation and range check (src/main.rs:332-333).
`sample_rate` is a finite float, so `f0 = sample_rate / est_lag` is
non-finite exactly when `est_lag = 0`: `f0.is_finite()` is modelled as
`est_lag` being nonzero. -/
def detectRefine (x : List ℚ) (n : Nat) (sampleRate minHz maxHz : ℚ) (bl : Nat) : Option ℚ :=
  if estLagOf x n bl ≠ 0 ∧ minHz ≤ sampleRate / estLagOf x n bl ∧
      sampleRate / estLagOf x n bl ≤ maxHz then
    some (sampleRate / estLagOf x n bl)
  else none

/-- Embedding of `detect_pitch_autocorr` (src/main.rs:260-334), with the
guards in source order: empty input, lag-bound check `max_lag + 1 >= n`,
near-silence check `energy0 <= 1e-9`, then the threshold / zero-lag
rejection and the refined range check. -/
def detect_pitch_autocorr (wt : Nat → Nat → ℚ) (input : List ℚ)
    (sampleRate minHz maxHz corrThreshold : ℚ) : Option ℚ :=
  if input = [] then none
  else if input.length ≤ maxLagOf sampleRate minHz + 1 then none
  else if energyOf wt input ≤ 1 / 1000000000 then none
  else if (bestPair wt input sampleRate minHz maxHz).2 < corrThreshold ∨
      (bestPair wt input sampleRate minHz maxHz).1 = 0 then none
  else
    detectRefine (windowed wt input) input.length sampleRate minHz maxHz
      (bestPair wt input sampleRate minHz maxHz).1

/-- The configuration fields the trigger state machine reads
(src/main.rs:26-50).  `hasAction nm` models `cfg.note_map.get(nm).is_some()`. -/
structure TrigCfg where
  tolerance_cents : ℚ
  note_hold_frames : Nat
  retrigger_ms : ℚ
  hasAction : String → Bool

/-- The mutable trigger state of the analysis loop (src/main.rs:129-131):
`last_note`, `stable_count`, and `last_trigger_time` on a rational
millisecond timeline. -/
structure TrigState where
  last_note : Option String
  stable_count : Nat
  last_trigger_time : ℚ

/-- One frame's external inputs: the current instant (ms), the judgment
produced by detection and quantization (note name and cents offset, or
none), and whether `execute_action` would succeed on this frame. -/
structure FrameIn where
  now : ℚ
  judgment : Option (String × ℚ)
  execOk : Bool

/-- The counter update of the in-tune branch (src/main.rs:167-172). -/
def nextCount (st : TrigState) (nm : String) : Nat :=
  if some nm = st.last_note then st.stable_count + 1 else 1

/-- Embedding of one iteration of the per-frame trigger logic
(src/main.rs:157-196).  Returns the new state and whether a trigger was
emitted (the `Trigger:` branch was entered).  `last_trigger_time` is
updated only when the action executes successfully (src/main.rs:179-183);
the reset branches mirror lines 186-196. -/
def stepFrame (cfg : TrigCfg) (st : TrigState) (fr : FrameIn) : TrigState × Bool :=
  match fr.judgment with
  | none => (⟨none, 0, st.last_trigger_time⟩, false)
  | some j =>
    if |j.2| ≤ cfg.tolerance_cents then
      if cfg.note_hold_frames ≤ nextCount st j.1 ∧
          cfg.retrigger_ms ≤ fr.now - st.last_trigger_time then
        if cfg.hasAction j.1 then
          (⟨some j.1, nextCount st j.1,
            if fr.execOk then fr.now else st.last_trigger_time⟩, true)
        else (⟨some j.1, nextCount st j.1, st.last_trigger_time⟩, false)
      else (⟨some j.1, nextCount st j.1, st.last_trigger_time⟩, false)
    else (⟨st.last_note, 0, st.last_trigger_time⟩, false)

/-- Iterate `stepFrame` over a list of frames, collecting the emission
flag of every frame. -/
def runSteps (cfg : TrigCfg) : TrigState → List FrameIn → TrigState × List Bool
  | st, [] => (st, [])
  | st, fr :: rest =>
    ((runSteps cfg (stepFrame cfg st fr).1 rest).1,
      (stepFrame cfg st fr).2 :: (runSteps cfg (stepFrame cfg st fr).1 rest).2)

/-- The (time, post-update counter) pairs of the frames that emit a
trigger along a run. -/
def emitInfos (cfg : TrigCfg) : TrigState → List FrameIn → List (ℚ × Nat)
  | _, [] => []
  | st, fr :: rest =>
    (if (stepFrame cfg st fr).2 then [(fr.now, (stepFrame cfg st fr).1.stable_count)] else [])
      ++ emitInfos cfg (stepFrame cfg st fr).1 rest

/-- Modelled from the spec: every emitted trigger has a post-update
consecutive count of at least `note_hold_frames`. -/
def emitHoldProp (cfg : TrigCfg) (st : TrigState) (frs : List FrameIn) : Prop :=
  ∀ q ∈ emitInfos cfg st frs, cfg.note_hold_frames ≤ q.2

/-- Modelled from the spec: consecutive emitted triggers are separated by
at least `retrigger_ms` (the elapsed time since the last emitted trigger
is at least the cooldown). -/
def emitGapProp (cfg : TrigCfg) (st : TrigState) (frs : List FrameIn) : Prop :=
  List.Chain' (fun a b => cfg.retrigger_ms ≤ b.1 - a.1) (emitInfos cfg st frs)

/-- Embedding of one sample arriving in the rolling buffer
(src/main.rs:142-146): push, then drain the overflow from the front. -/
def pushSample {α : Type} (W : Nat) (buf : List α) (s : α) : List α :=
  if W < (buf ++ [s]).length then (buf ++ [s]).drop ((buf ++ [s]).length - W) else buf ++ [s]

/-- Push a batch of samples one at a time. -/
def pushChunk {α : Type} (W : Nat) (buf chunk : List α) : List α :=
  chunk.foldl (pushSample W) buf

/-- The most recent `W` elements of a list (all of it when shorter). -/
def tailWin {α : Type} (W : Nat) (l : List α) : List α :=
  l.drop (l.length - W)

/-- Embedding of the consumption loop (src/main.rs:137-154) on a finite
sample stream: each outer iteration receives `H` samples into the
rolling buffer and analyzes the buffer when it holds a full window.
Returns the analyzed windows in order.  The loop blocks when fewer than
`H` samples remain; `H = 0` (where the source would spin forever) is
outside the theorems, which assume `0 < H`. -/
def runHops {α : Type} (W H : Nat) (buf stream : List α) : List (List α) :=
  if h : H = 0 ∨ stream.length < H then []
  else
    (if (pushChunk W buf (stream.take H)).length < W then []
     else [pushChunk W buf (stream.take H)])
      ++ runHops W H (pushChunk W buf (stream.take H)) (stream.drop H)
termination_by stream.length
decreasing_by simp only [List.length_drop]; omega

/-- The analysis schedule the specification describes: after every
`(k+1)*H` received samples, the most recent `W` of them, provided at
least `W` samples have ever been received at that point. -/
def hopWindows {α : Type} (W H : Nat) (stream : List α) : List (List α) :=
  (List.range (stream.length / H)).filterMap (fun k =>
    if W ≤ (k + 1) * H then some (tailWin W (stream.take ((k + 1) * H))) else none)

/-- The `enigo` key identifiers the dispatcher uses (src/main.rs:390-412). -/
inductive RKey : Type where
  | Control : RKey
  | Shift : RKey
  | Alt : RKey
  | Meta : RKey
  | Space : RKey
  | Return : RKey
  | Tab : RKey
  | Escape : RKey
  | UpArrow : RKey
  | DownArrow : RKey
  | LeftArrow : RKey
  | RightArrow : RKey
  | Layout : Char → RKey
deriving DecidableEq

/-- The injected keyboard events (src/main.rs:417-422). -/
inductive KeyEvent : Type where
  | down : RKey → KeyEvent
  | click : RKey → KeyEvent
  | up : RKey → KeyEvent
deriving DecidableEq

/-- Rust `char::to_ascii_lowercase`. -/
def asciiLower (c : Char) : Char :=
  if 'A' ≤ c ∧ c ≤ 'Z' then Char.ofNat (c.toNat + 32) else c

/-- Rust `str::to_ascii_lowercase` on a token. -/
def lowerTok (t : List Char) : List Char :=
  t.map asciiLower

/-- Rust `str::split('+')`: split at every plus, keeping empty pieces. -/
def splitPlus : List Char → List (List Char)
  | [] => [[]]
  | c :: rest =>
    match splitPlus rest with
    | [] => [[]]
    | h :: tl => if c = '+' then [] :: h :: tl else (c :: h) :: tl

/-- Rust `str::trim` on a token: strip whitespace from both ends. -/
def trimChars (cs : List Char) : List Char :=
  ((cs.dropWhile Char.isWhitespace).reverse.dropWhile Char.isWhitespace).reverse

/-- The token list of `send_keys` (src/main.rs:380-384): split on `'+'`,
trim, drop empty tokens. -/
def tokenizeKeys (sequence : String) : List (List Char) :=
  ((splitPlus sequence.data).map trimChars).filter (fun t => !t.isEmpty)

/-- Classification of one token by the match of src/main.rs:391-413:
a modifier, a main key, or an unknown token (reported lowercased, as the
source does). -/
inductive TokClass : Type where
  | isMod : RKey → TokClass
  | isMain : RKey → TokClass
  | bad : List Char → TokClass

/-- The per-token match on the ASCII-lowercased token
(src/main.rs:390-414): named modifiers, named special keys, then any
single character as a layout key, everything else unknown. -/
def classifyTok (t : List Char) : TokClass :=
  if lowerTok t = ("ctrl").data ∨ lowerTok t = ("control").data then TokClass.isMod RKey.Control
  else if lowerTok t = ("shift").data then TokClass.isMod RKey.Shift
  else if lowerTok t = ("alt").data then TokClass.isMod RKey.Alt
  else if lowerTok t = ("win").data ∨ lowerTok t = ("meta").data then TokClass.isMod RKey.Meta
  else if lowerTok t = ("space").data then TokClass.isMain RKey.Space
  else if lowerTok t = ("enter").data ∨ lowerTok t = ("return").data then
    TokClass.isMain RKey.Return
  else if lowerTok t = ("tab").data then TokClass.isMain RKey.Tab
  else if lowerTok t = ("esc").data ∨ lowerTok t = ("escape").data then
    TokClass.isMain RKey.Escape
  else if lowerTok t = ("up").data ∨ lowerTok t = ("uparrow").data then
    TokClass.isMain RKey.UpArrow
  else if lowerTok t = ("down").data ∨ lowerTok t = ("downarrow").data then
    TokClass.isMain RKey.DownArrow
  else if lowerTok t = ("left").data ∨ lowerTok t = ("leftarrow").data then
    TokClass.isMain RKey.LeftArrow
  else if lowerTok t = ("right").data ∨ lowerTok t = ("rightarrow").data then
    TokClass.isMain RKey.RightArrow
  else
    match lowerTok t with
    | [c] => TokClass.isMain (RKey.Layout c)
    | _ => TokClass.bad (lowerTok t)

/-- The token loop of `send_keys` (src/main.rs:387-414): accumulate
modifiers in order, let each main key overwrite the previous one, return
early on an unknown token. -/
def procLoop (mods : List RKey) (mk : Option RKey) :
    List (List Char) → Except String (List RKey × Option RKey)
  | [] => Except.ok (mods, mk)
  | t :: rest =>
    match classifyTok t with
    | TokClass.isMod k => procLoop (mods ++ [k]) mk rest
    | TokClass.isMain k => procLoop mods (some k) rest
    | TokClass.bad l => Except.error (("Unknown key token: ") ++ String.mk l)

/-- Embedding of `send_keys` (src/main.rs:378-424), up to the actual key
injection: it returns the pressed modifiers and the clicked main key, or
the error the source would wrap. -/
def send_keys (sequence : String) : Except String (List RKey × RKey) :=
  if tokenizeKeys sequence = [] then Except.error ("Empty key sequence")
  else
    match procLoop [] none (tokenizeKeys sequence) with
    | Except.error e => Except.error e
    | Except.ok (_, none) => Except.error ("No main key in sequence")
    | Except.ok (mods, some k) => Except.ok (mods, k)

/-- The modifier key a token contributes, if any. -/
def modKeyOf (t : List Char) : Option RKey :=
  match classifyTok t with
  | TokClass.isMod k => some k
  | _ => none

/-- The main key a token contributes, if any. -/
def mainKeyOf (t : List Char) : Option RKey :=
  match classifyTok t with
  | TokClass.isMain k => some k
  | _ => none

/-- Whether a token is unrecognized. -/
def isBadTok (t : List Char) : Bool :=
  match classifyTok t with
  | TokClass.bad _ => true
  | _ => false

/-- Whether a token is a modifier. -/
def isModTok (t : List Char) : Bool :=
  (modKeyOf t).isSome

/-- The event sequence the dispatcher injects on success
(src/main.rs:417-422): press the modifiers, click the main key, release
the modifiers in reverse order. -/
def keyEventsOf (mods : List RKey) (key : RKey) : List KeyEvent :=
  mods.map KeyEvent.down ++ [KeyEvent.click key] ++ mods.reverse.map KeyEvent.up

/-- The clicked keys among injected events. -/
def clicksOf (evs : List KeyEvent) : List RKey :=
  evs.filterMap (fun e =>
    match e with
    | KeyEvent.click k => some k
    | _ => none)

/-! ### Window and hop auto-derivation (claim C3) -/

theorem npotAux_ge (x : Nat) : ∀ p : Nat, 0 < p → x ≤ npotAux x p := by
  intro p
  induction p using npotAux.induct x with
  | case1 p h ih =>
    intro _
    rw [npotAux, dif_pos h]
    exact ih (by omega)
  | case2 p h =>
    intro hp
    rw [npotAux, dif_neg h]
    omega

theorem npotAux_pow (x : Nat) : ∀ p : Nat, (∃ j, p = 2 ^ j) → ∃ k, npotAux x p = 2 ^ k := by
  intro p
  induction p using npotAux.induct x with
  | case1 p h ih =>
    rintro ⟨j, rfl⟩
    rw [npotAux, dif_pos h]
    exact ih ⟨j + 1, by rw [pow_succ]⟩
  | case2 p h =>
    rintro ⟨j, rfl⟩
    rw [npotAux, dif_neg h]
    exact ⟨j, rfl⟩

theorem npotAux_min (x m : Nat) :
    ∀ p : Nat, (∃ j, p = 2 ^ j) → p ≤ 2 ^ m → x ≤ 2 ^ m → npotAux x p ≤ 2 ^ m := by
  intro p
  induction p using npotAux.induct x with
  | case1 p h ih =>
    rintro ⟨j, rfl⟩ hpm hxm
    rw [npotAux, dif_pos h]
    have hjm : j < m := by
      have : (2 : Nat) ^ j < 2 ^ m := by omega
      exact (Nat.pow_lt_pow_iff_right (by omega)).mp this
    refine ih ⟨j + 1, by rw [pow_succ]⟩ ?_ hxm
    calc 2 ^ j * 2 = 2 ^ (j + 1) := by rw [pow_succ]
    _ ≤ 2 ^ m := Nat.pow_le_pow_right (by omega) (by omega)
  | case2 p h =>
    rintro ⟨j, rfl⟩ hpm hxm
    rw [npotAux, dif_neg h]
    exact hpm

theorem npotAux_step (x p : Nat) (h1 : 0 < p) (h2 : p < x) :
    npotAux x p = npotAux x (p * 2) := by
  rw [npotAux, dif_pos ⟨h1, h2⟩]

theorem npotAux_done (x p : Nat) (hp : x ≤ p) : npotAux x p = p := by
  rw [npotAux, dif_neg (by omega)]

theorem npot_2400 : nearest_power_of_two 2400 = 4096 := by
  unfold nearest_power_of_two
  rw [npotAux_step 2400 1 (by norm_num) (by norm_num)]
  norm_num
  rw [npotAux_step 2400 2 (by norm_num) (by norm_num)]
  norm_num
  rw [npotAux_step 2400 4 (by norm_num) (by norm_num)]
  norm_num
  rw [npotAux_step 2400 8 (by norm_num) (by norm_num)]
  norm_num
  rw [npotAux_step 2400 16 (by norm_num) (by norm_num)]
  norm_num
  rw [npotAux_step 2400 32 (by norm_num) (by norm_num)]
  norm_num
  rw [npotAux_step 2400 64 (by norm_num) (by norm_num)]
  norm_num
  rw [npotAux_step 2400 128 (by norm_num) (by norm_num)]
  norm_num
  rw [npotAux_step 2400 256 (by norm_num) (by norm_num)]
  norm_num
  rw [npotAux_step 2400 512 (by norm_num) (by norm_num)]
  norm_num
  rw [npotAux_step 2400 1024 (by norm_num) (by norm_num)]
  norm_num
  rw [npotAux_step 2400 2048 (by norm_num) (by norm_num)]
  norm_num
  rw [npotAux_done 2400 4096 (by norm_num)]

/-- C3, corrected part.  At the concrete input 2400 (what
`(48000 as f32 / 20.0) as usize` evaluates to), the resolved window size
is 4096, while the power of two nearest to 2400, clamped to
[1024, 8192], is 2048: the source's `nearest_power_of_two` returns the
next power of two at or above its argument, not the nearest one, so the
claimed auto-derivation rule does not match the code. -/
theorem C3_counterexample :
    resolveWindowSize 0 2400 = 4096 ∧ min (max (specNearestPow2 2400) 1024) 8192 = 2048 := by
  have hlog : Nat.log 2 2400 = 11 :=
    Nat.log_eq_of_pow_le_of_lt_pow (by norm_num) (by norm_num)
  constructor
  · norm_num [resolveWindowSize, npot_2400]
  · norm_num [specNearestPow2, hlog]

/-- C3, amended: when the configured `window_size` is 0, the resolved
window size is the SMALLEST power of two at or above `sample_rate / 20`
(not the nearest), clamped to [1024, 8192]; it is always a power of two
in [1024, 8192]; when the configured `hop_size` is 0 it is the resolved
window size divided by 4; in particular for sample rate 48000 the window
is 4096 and the hop is 1024. -/
theorem C3_window_auto_derivation :
    (∀ s : Nat, s ≤ nearest_power_of_two s)
    ∧ (∀ s : Nat, ∃ k, nearest_power_of_two s = 2 ^ k)
    ∧ (∀ s m : Nat, s ≤ 2 ^ m → nearest_power_of_two s ≤ 2 ^ m)
    ∧ (∀ s : Nat, resolveWindowSize 0 s = min (max (nearest_power_of_two s) 1024) 8192)
    ∧ (∀ s : Nat, 1024 ≤ resolveWindowSize 0 s ∧ resolveWindowSize 0 s ≤ 8192 ∧
        ∃ k, resolveWindowSize 0 s = 2 ^ k)
    ∧ (∀ w : Nat, resolveHopSize 0 w = w / 4)
    ∧ resolveWindowSize 0 2400 = 4096 ∧ resolveHopSize 0 4096 = 1024 := by
  have hge : ∀ s : Nat, s ≤ nearest_power_of_two s := fun s => npotAux_ge s 1 (by omega)
  have hpow : ∀ s : Nat, ∃ k, nearest_power_of_two s = 2 ^ k := fun s =>
    npotAux_pow s 1 ⟨0, rfl⟩
  have hmin : ∀ s m : Nat, s ≤ 2 ^ m → nearest_power_of_two s ≤ 2 ^ m := fun s m hs =>
    npotAux_min s m 1 ⟨0, rfl⟩ Nat.one_le_two_pow hs
  have hres : ∀ s : Nat, resolveWindowSize 0 s = min (max (nearest_power_of_two s) 1024) 8192 := by
    intro s
    simp [resolveWindowSize]
  refine ⟨hge, hpow, hmin, hres, ?_, ?_, ?_, ?_⟩
  · intro s
    obtain ⟨k, hk⟩ := hpow s
    rw [hres s]
    rcases le_total (nearest_power_of_two s) 1024 with h1 | h1
    · rw [max_eq_right h1, min_eq_left (by norm_num)]
      exact ⟨le_rfl, by norm_num, 10, by norm_num⟩
    · rw [max_eq_left h1]
      rcases le_total (nearest_power_of_two s) 8192 with h2 | h2
      · rw [min_eq_left h2]
        exact ⟨h1, h2, k, hk⟩
      · rw [min_eq_right h2]
        exact ⟨by norm_num, le_rfl, 13, by norm_num⟩
  · intro w
    simp [resolveHopSize]
  · norm_num [resolveWindowSize, npot_2400]
  · norm_num [resolveHopSize]

/-- Witness for C3: the least-power-of-two bound applied at the concrete
input 2400 with bound exponent 12. -/
theorem C3_window_auto_derivation_witness :
    2400 ≤ 2 ^ 12 ∧ nearest_power_of_two 2400 ≤ 2 ^ 12 :=
  ⟨by norm_num, C3_window_auto_derivation.2.2.1 2400 12 (by norm_num)⟩

/-! ### Note quantizer (claims C4 and C9) -/

theorem rustRound_intCast (k : Int) : rustRound (k : ℚ) = k := by
  unfold rustRound
  split
  · rw [add_comm, Int.floor_add_int]
    norm_num
  · rw [sub_eq_add_neg, add_comm, Int.ceil_add_int]
    norm_num

theorem abs_sub_rustRound (m : ℚ) : |m - (rustRound m : ℚ)| ≤ 1 / 2 := by
  unfold rustRound
  split
  · have h1 := Int.floor_le (m + 1 / 2)
    have h2 := Int.lt_floor_add_one (m + 1 / 2)
    rw [abs_le]
    constructor <;> linarith
  · have h1 := Int.le_ceil (m - 1 / 2)
    have h2 := Int.ceil_lt_add_one (m - 1 / 2)
    rw [abs_le]
    constructor <;> linarith

/-- C4, corrected part.  The truncated MIDI number -1 (reached by a
positive finite frequency near 7.7 Hz) shows the divergence: the code
(`midi / 12 - 1` with Rust division truncating toward zero) names it
"B-1", while the claimed formula with octave `⌊midi/12⌋ - 1` (floor
division) names it "B-2". -/
theorem C4_counterexample :
    (freq_to_note (-1 : ℚ)).1 = ("B-1") ∧ midi_to_name_spec (-1) = ("B-2") := by
  have hr : rustRound (-1 : ℚ) = -1 := by
    have := rustRound_intCast (-1)
    simpa using this
  constructor
  · simp only [freq_to_note, hr]
    decide
  · decide

/-- C4, amended: `freq_to_note` rounds the fractional MIDI number to the
nearest integer (within one half), returns cents `(m - round m) * 100`
(positive exactly when sharp, negative exactly when flat), and the note
name follows the claimed pitch-class/octave formula for every
nonnegative rounded MIDI number (all frequencies of at least about
8.2 Hz); for negative MIDI numbers the code's truncating division makes
the octave one higher than the claimed floor formula. -/
theorem C4_freq_to_note :
    (∀ m : ℚ, |m - (rustRound m : ℚ)| ≤ 1 / 2)
    ∧ (∀ m : ℚ, freq_to_note m = (midi_to_name (rustRound m), (m - (rustRound m : ℚ)) * 100))
    ∧ (∀ m : ℚ, (rustRound m : ℚ) < m → 0 < (freq_to_note m).2)
    ∧ (∀ m : ℚ, m < (rustRound m : ℚ) → (freq_to_note m).2 < 0)
    ∧ (∀ k : Int, 0 ≤ k → midi_to_name k = midi_to_name_spec k) := by
  refine ⟨abs_sub_rustRound, fun m => rfl, ?_, ?_, ?_⟩
  · intro m hm
    simp only [freq_to_note]
    have : (0 : ℚ) < m - (rustRound m : ℚ) := by linarith
    positivity
  · intro m hm
    simp only [freq_to_note]
    have h : m - (rustRound m : ℚ) < 0 := by linarith
    nlinarith
  · intro k hk
    obtain ⟨n, rfl⟩ := Int.eq_ofNat_of_zero_le hk
    unfold midi_to_name midi_to_name_spec
    have h1 : Int.tmod (n : Int) 12 = (n : Int) % 12 :=
      Int.tmod_eq_emod (by omega) (by omega)
    rw [h1, Int.tmod_eq_emod (by omega) (by omega),
      Int.fdiv_eq_ediv _ (by omega), Int.tdiv_eq_ediv (by omega) (by omega)]

/-- Witness for C4: the cents sign facts and the name agreement at
concrete inputs (fractional MIDI 1/4, rounded to 0, is sharp; 69 names
identically under code and claimed formula). -/
theorem C4_freq_to_note_witness :
    ((rustRound (1 / 4 : ℚ) : ℚ) < 1 / 4 → 0 < (freq_to_note (1 / 4 : ℚ)).2)
    ∧ (0 ≤ (69 : Int) ∧ midi_to_name 69 = midi_to_name_spec 69) :=
  ⟨C4_freq_to_note.2.2.1 (1 / 4 : ℚ),
    ⟨by norm_num, C4_freq_to_note.2.2.2.2 69 (by norm_num)⟩⟩

/-- C9, confirmed: at the exact fractional MIDI number of any
equal-tempered note (the value `69 + 12*log2(f/440)` takes at
`f = 440 * 2^((k-69)/12)`, which is exactly the integer `k`), the cents
offset is exactly 0 and the name is the table name of `k`; one semitone
up (multiplying the frequency by `2^(1/12)` adds exactly 1 to the
fractional MIDI number) again gives 0 cents and the next note name; and
440 Hz (MIDI 69) yields ("A4", 0). -/
theorem C9_quantizer_roundtrip :
    (∀ k : Int, freq_to_note (k : ℚ) = (midi_to_name k, 0))
    ∧ (∀ k : Int, freq_to_note ((k : ℚ) + 1) = (midi_to_name (k + 1), 0))
    ∧ freq_to_note (69 : ℚ) = (("A4"), 0) := by
  have h1 : ∀ j : Int, freq_to_note (j : ℚ) = (midi_to_name j, 0) := by
    intro j
    simp [freq_to_note, rustRound_intCast]
  refine ⟨h1, ?_, ?_⟩
  · intro k
    have hcast : ((k : ℚ) + 1) = ((k + 1 : Int) : ℚ) := by push_cast; ring
    rw [hcast, h1]
  · have hcast : (69 : ℚ) = ((69 : Int) : ℚ) := by norm_num
    rw [hcast, h1]
    have : midi_to_name 69 = ("A4") := by decide
    rw [this]

/-! ### Pitch estimator safety (claim C2) -/

theorem detectRefine_some (x : List ℚ) (n : Nat) (sr mn mx : ℚ) (bl : Nat) (f : ℚ)
    (hf : detectRefine x n sr mn mx bl = some f) : mn ≤ f ∧ f ≤ mx := by
  unfold detectRefine at hf
  split at hf
  · rename_i h
    injection hf with hf
    subst hf
    exact ⟨h.2.1, h.2.2⟩
  · exact Option.noConfusion hf

/-- C2, confirmed: over the exact-rational embedding (which is total, so
the function terminates and never panics by construction), and for every
Hann-weight function, every input slice and all parameters:
a returned frequency always lies within `[min_hz, max_hz]` (and, being a
rational, is finite — the `is_finite` guard is part of the final check);
an empty window yields no pitch; a window whose windowed energy is at or
below `1e-9` yields no pitch.  Each division of the source appears here
behind its explicit guard (`den <= 1e-12`, `denom.abs() > 1e-6`,
`f0.is_finite()`), so no non-finite value can be produced. -/
theorem C2_detect_pitch_safety :
    ∀ (wt : Nat → Nat → ℚ) (input : List ℚ) (sampleRate minHz maxHz corrThreshold : ℚ),
    (∀ f, detect_pitch_autocorr wt input sampleRate minHz maxHz corrThreshold = some f →
      minHz ≤ f ∧ f ≤ maxHz)
    ∧ (input = [] → detect_pitch_autocorr wt input sampleRate minHz maxHz corrThreshold = none)
    ∧ (energyOf wt input ≤ 1 / 1000000000 →
      detect_pitch_autocorr wt input sampleRate minHz maxHz corrThreshold = none) := by
  intro wt input sr mn mx th
  refine ⟨?_, ?_, ?_⟩
  · intro f hf
    unfold detect_pitch_autocorr at hf
    split at hf
    · exact Option.noConfusion hf
    split at hf
    · exact Option.noConfusion hf
    split at hf
    · exact Option.noConfusion hf
    split at hf
    · exact Option.noConfusion hf
    exact detectRefine_some _ _ _ _ _ _ _ hf
  · intro h
    simp [detect_pitch_autocorr, h]
  · intro h
    unfold detect_pitch_autocorr
    split
    · rfl
    split
    · rfl
    simp [h]

/-- Witness for C2: the empty window and an all-zero window at the
default configuration both yield no pitch. -/
theorem C2_detect_pitch_safety_witness :
    detect_pitch_autocorr (fun _ _ => 1) [] 48000 90 2000 (7 / 20) = none
    ∧ (energyOf (fun _ _ => 1) [0, 0, 0, 0] ≤ 1 / 1000000000
      ∧ detect_pitch_autocorr (fun _ _ => 1) [0, 0, 0, 0] 48000 90 2000 (7 / 20) = none) := by
  have he : energyOf (fun _ _ => (1 : ℚ)) [0, 0, 0, 0] ≤ 1 / 1000000000 := by
    norm_num [energyOf, windowed, meanOf, List.range_succ]
  exact ⟨(C2_detect_pitch_safety _ _ _ _ _ _).2.1 rfl,
    ⟨he, (C2_detect_pitch_safety _ _ _ _ _ _).2.2 he⟩⟩

/-! ### Trigger state machine (claims C1, C5, C6, C7) -/

theorem stepFrame_none (cfg : TrigCfg) (st : TrigState) (fr : FrameIn)
    (h : fr.judgment = none) :
    stepFrame cfg st fr = (⟨none, 0, st.last_trigger_time⟩, false) := by
  simp [stepFrame, h]

theorem stepFrame_out_of_tune (cfg : TrigCfg) (st : TrigState) (fr : FrameIn)
    (nm : String) (c : ℚ) (hj : fr.judgment = some (nm, c))
    (hc : cfg.tolerance_cents < |c|) :
    stepFrame cfg st fr = (⟨st.last_note, 0, st.last_trigger_time⟩, false) := by
  have hc2 : ¬ |c| ≤ cfg.tolerance_cents := not_le.mpr hc
  simp [stepFrame, hj, hc2]

theorem stepFrame_no_trigger (cfg : TrigCfg) (st : TrigState) (fr : FrameIn)
    (nm : String) (c : ℚ) (hj : fr.judgment = some (nm, c))
    (hc : |c| ≤ cfg.tolerance_cents)
    (hcool : fr.now - st.last_trigger_time < cfg.retrigger_ms) :
    stepFrame cfg st fr = (⟨some nm, nextCount st nm, st.last_trigger_time⟩, false) := by
  have hcond : ¬ (cfg.note_hold_frames ≤ nextCount st nm ∧
      cfg.retrigger_ms ≤ fr.now - st.last_trigger_time) := by
    rintro ⟨-, h2⟩
    exact absurd h2 (not_le.mpr hcool)
  simp [stepFrame, hj, hc, hcond]

theorem stepFrame_trigger (cfg : TrigCfg) (st : TrigState) (fr : FrameIn)
    (nm : String) (c : ℚ) (hj : fr.judgment = some (nm, c))
    (hc : |c| ≤ cfg.tolerance_cents)
    (hhold : cfg.note_hold_frames ≤ nextCount st nm)
    (hcool : cfg.retrigger_ms ≤ fr.now - st.last_trigger_time)
    (hact : cfg.hasAction nm = true) :
    stepFrame cfg st fr = (⟨some nm, nextCount st nm,
      if fr.execOk then fr.now else st.last_trigger_time⟩, true) := by
  simp [stepFrame, hj, hc, hhold, hcool, hact]

theorem stepFrame_in_tune_no_emit (cfg : TrigCfg) (st : TrigState) (fr : FrameIn)
    (nm : String) (c : ℚ) (hj : fr.judgment = some (nm, c))
    (hc : |c| ≤ cfg.tolerance_cents)
    (hno : ¬ (cfg.note_hold_frames ≤ nextCount st nm ∧
        cfg.retrigger_ms ≤ fr.now - st.last_trigger_time) ∨ ¬ cfg.hasAction nm = true) :
    stepFrame cfg st fr = (⟨some nm, nextCount st nm, st.last_trigger_time⟩, false) := by
  rcases hno with hno | hno
  · simp [stepFrame, hj, hc, hno]
  · simp [stepFrame, hj, hc, hno]

theorem stepFrame_emit_inv (cfg : TrigCfg) (st : TrigState) (fr : FrameIn)
    (h : (stepFrame cfg st fr).2 = true) :
    ∃ nm c, fr.judgment = some (nm, c) ∧ |c| ≤ cfg.tolerance_cents ∧
      cfg.note_hold_frames ≤ nextCount st nm ∧
      cfg.retrigger_ms ≤ fr.now - st.last_trigger_time ∧ cfg.hasAction nm = true ∧
      stepFrame cfg st fr = (⟨some nm, nextCount st nm,
        if fr.execOk then fr.now else st.last_trigger_time⟩, true) := by
  cases hj : fr.judgment with
  | none =>
    rw [stepFrame_none cfg st fr hj] at h
    simp at h
  | some j =>
    obtain ⟨nm, c⟩ := j
    by_cases hc : |c| ≤ cfg.tolerance_cents
    · by_cases hcond : cfg.note_hold_frames ≤ nextCount st nm ∧
          cfg.retrigger_ms ≤ fr.now - st.last_trigger_time
      · by_cases hact : cfg.hasAction nm = true
        · exact ⟨nm, c, rfl, hc, hcond.1, hcond.2, hact,
            stepFrame_trigger cfg st fr nm c hj hc hcond.1 hcond.2 hact⟩
        · rw [stepFrame_in_tune_no_emit cfg st fr nm c hj hc (Or.inr hact)] at h
          simp at h
      · rw [stepFrame_in_tune_no_emit cfg st fr nm c hj hc (Or.inl hcond)] at h
        simp at h
    · rw [stepFrame_out_of_tune cfg st fr nm c hj (not_le.mp hc)] at h
      simp at h

theorem stepFrame_no_emit_time (cfg : TrigCfg) (st : TrigState) (fr : FrameIn)
    (h : (stepFrame cfg st fr).2 = false) :
    (stepFrame cfg st fr).1.last_trigger_time = st.last_trigger_time := by
  cases hj : fr.judgment with
  | none => rw [stepFrame_none cfg st fr hj]
  | some j =>
    obtain ⟨nm, c⟩ := j
    by_cases hc : |c| ≤ cfg.tolerance_cents
    · by_cases hcond : cfg.note_hold_frames ≤ nextCount st nm ∧
          cfg.retrigger_ms ≤ fr.now - st.last_trigger_time
      · by_cases hact : cfg.hasAction nm = true
        · rw [stepFrame_trigger cfg st fr nm c hj hc hcond.1 hcond.2 hact] at h
          simp at h
        · rw [stepFrame_in_tune_no_emit cfg st fr nm c hj hc (Or.inr hact)]
      · rw [stepFrame_in_tune_no_emit cfg st fr nm c hj hc (Or.inl hcond)]
    · rw [stepFrame_out_of_tune cfg st fr nm c hj (not_le.mp hc)]

theorem stepFrame_in_tune_count (cfg : TrigCfg) (st : TrigState) (fr : FrameIn)
    (nm : String) (c : ℚ) (hj : fr.judgment = some (nm, c))
    (hc : |c| ≤ cfg.tolerance_cents) :
    (stepFrame cfg st fr).1.stable_count = nextCount st nm := by
  by_cases hcond : cfg.note_hold_frames ≤ nextCount st nm ∧
      cfg.retrigger_ms ≤ fr.now - st.last_trigger_time
  · by_cases hact : cfg.hasAction nm = true
    · rw [stepFrame_trigger cfg st fr nm c hj hc hcond.1 hcond.2 hact]
    · rw [stepFrame_in_tune_no_emit cfg st fr nm c hj hc (Or.inr hact)]
  · rw [stepFrame_in_tune_no_emit cfg st fr nm c hj hc (Or.inl hcond)]

theorem nextCount_same (nm : String) (k : Nat) (t : ℚ) :
    nextCount ⟨some nm, k, t⟩ nm = k + 1 := by
  simp [nextCount]

/-- C1, amended: in every state (hence every reachable state), a trigger
is emitted on a frame only if, after the counter update, the consecutive
count is at least `note_hold_frames` and the time since
`last_trigger_time` — the instant of the last SUCCESSFUL action
dispatch, not of the last emitted trigger — is at least `retrigger_ms`. -/
theorem C1_trigger_conditions :
    ∀ (cfg : TrigCfg) (st : TrigState) (fr : FrameIn),
      (stepFrame cfg st fr).2 = true →
      cfg.note_hold_frames ≤ (stepFrame cfg st fr).1.stable_count ∧
      cfg.retrigger_ms ≤ fr.now - st.last_trigger_time := by
  intro cfg st fr h
  obtain ⟨nm, c, hj, hc, hhold, hcool, hact, heq⟩ := stepFrame_emit_inv cfg st fr h
  rw [heq]
  exact ⟨hhold, hcool⟩

/-- Witness for C1: the amended conditions at a concrete emitting frame. -/
theorem C1_trigger_conditions_witness :
    (stepFrame ⟨35, 1, 500, fun nm => nm == ("A4")⟩ ⟨none, 0, -500⟩
        ⟨0, some (("A4"), 0), true⟩).2 = true
    ∧ 1 ≤ (stepFrame ⟨35, 1, 500, fun nm => nm == ("A4")⟩ ⟨none, 0, -500⟩
        ⟨0, some (("A4"), 0), true⟩).1.stable_count
    ∧ (500 : ℚ) ≤ (0 : ℚ) - (-500) := by
  have hem : (stepFrame ⟨35, 1, 500, fun nm => nm == ("A4")⟩ ⟨none, 0, -500⟩
      ⟨0, some (("A4"), 0), true⟩).2 = true := by
    norm_num [stepFrame, nextCount]
  have h := C1_trigger_conditions _ _ _ hem
  exact ⟨hem, h.1, h.2⟩

/-- C1, corrected part.  With `note_hold_frames = 1`, `retrigger_ms =
500` and an action configured for "A4", a run whose first frame (at time
0) emits a trigger whose dispatch FAILS emits again on the next frame at
time 100: both frames emit, yet only 100 ms separate the two emissions,
contradicting the claim that every emission is at least `retrigger_ms`
after the last emitted trigger.  (The cooldown is measured from
`last_trigger_time`, which a failed dispatch does not update.) -/
theorem C1_counterexample :
    ¬ (emitHoldProp ⟨35, 1, 500, fun nm => nm == ("A4")⟩ ⟨none, 0, -500⟩
          [⟨0, some (("A4"), 0), false⟩, ⟨100, some (("A4"), 0), true⟩]
        ∧ emitGapProp ⟨35, 1, 500, fun nm => nm == ("A4")⟩ ⟨none, 0, -500⟩
          [⟨0, some (("A4"), 0), false⟩, ⟨100, some (("A4"), 0), true⟩]) := by
  have hinfo : emitInfos ⟨35, 1, 500, fun nm => nm == ("A4")⟩ ⟨none, 0, -500⟩
      [⟨0, some (("A4"), 0), false⟩, ⟨100, some (("A4"), 0), true⟩]
      = [(0, 1), (100, 2)] := by
    norm_num [emitInfos, stepFrame, nextCount]
  rintro ⟨-, hgap⟩
  rw [emitGapProp, hinfo] at hgap
  rw [List.chain'_cons] at hgap
  have := hgap.1
  norm_num at this

/-- C5, corrected part.  On a frame whose pitch is detected but out of
tune (50 cents against a 35-cent tolerance), the counter resets to 0 but
`last_note` is NOT cleared: it stays `some "A4"`, contradicting the
claim that both are reset. -/
theorem C5_counterexample :
    (stepFrame ⟨35, 3, 500, fun _ => false⟩ ⟨some ("A4"), 2, 0⟩
        ⟨100, some (("A4"), 50), true⟩).1.last_note = some ("A4")
    ∧ (stepFrame ⟨35, 3, 500, fun _ => false⟩ ⟨some ("A4"), 2, 0⟩
        ⟨100, some (("A4"), 50), true⟩).1.stable_count = 0 := by
  norm_num [stepFrame]

/-- C5, amended: a no-pitch frame resets the counter to 0 AND clears
`last_note`; an out-of-tune frame resets the counter to 0 but leaves
`last_note` unchanged.  A fresh run still starts from an in-tune frame:
from a zero counter, any in-tune frame yields counter exactly 1,
whatever `last_note` holds. -/
theorem C5_reset_behavior :
    (∀ (cfg : TrigCfg) (st : TrigState) (fr : FrameIn), fr.judgment = none →
      stepFrame cfg st fr = (⟨none, 0, st.last_trigger_time⟩, false))
    ∧ (∀ (cfg : TrigCfg) (st : TrigState) (fr : FrameIn) (nm : String) (c : ℚ),
        fr.judgment = some (nm, c) → cfg.tolerance_cents < |c| →
        stepFrame cfg st fr = (⟨st.last_note, 0, st.last_trigger_time⟩, false))
    ∧ (∀ (cfg : TrigCfg) (st : TrigState) (fr : FrameIn) (nm : String) (c : ℚ),
        st.stable_count = 0 → fr.judgment = some (nm, c) → |c| ≤ cfg.tolerance_cents →
        (stepFrame cfg st fr).1.stable_count = 1) := by
  refine ⟨?_, ?_, ?_⟩
  · intro cfg st fr h
    exact stepFrame_none cfg st fr h
  · intro cfg st fr nm c hj hc
    exact stepFrame_out_of_tune cfg st fr nm c hj hc
  · intro cfg st fr nm c h0 hj hc
    rw [stepFrame_in_tune_count cfg st fr nm c hj hc]
    unfold nextCount
    rw [h0]
    split
    · rfl
    · rfl

/-- Witness for C5: the three reset behaviors at concrete frames. -/
theorem C5_reset_behavior_witness :
    stepFrame ⟨35, 3, 500, fun _ => false⟩ ⟨some ("A4"), 2, 7⟩ ⟨100, none, true⟩
      = (⟨none, 0, 7⟩, false)
    ∧ stepFrame ⟨35, 3, 500, fun _ => false⟩ ⟨some ("A4"), 2, 7⟩
        ⟨100, some (("G3"), 40), true⟩ = (⟨some ("A4"), 0, 7⟩, false)
    ∧ (stepFrame ⟨35, 3, 500, fun _ => false⟩ ⟨some ("A4"), 0, 7⟩
        ⟨100, some (("G3"), 1), true⟩).1.stable_count = 1 := by
  refine ⟨C5_reset_behavior.1 _ _ _ rfl, ?_, ?_⟩
  · have h := C5_reset_behavior.2.1 ⟨35, 3, 500, fun _ => false⟩ ⟨some ("A4"), 2, 7⟩
      ⟨100, some (("G3"), 40), true⟩ ("G3") 40 rfl (by norm_num)
    exact h
  · exact C5_reset_behavior.2.2 ⟨35, 3, 500, fun _ => false⟩ ⟨some ("A4"), 0, 7⟩
      ⟨100, some (("G3"), 1), true⟩ ("G3") 1 rfl rfl (by norm_num)

/-- C7, confirmed: an emitted trigger whose dispatch fails leaves
`last_trigger_time` unchanged (the cooldown is not consumed), a
successful dispatch sets it to the current instant, a non-emitting frame
never touches it, and after a failed dispatch the trigger fires again on
the next qualifying frame (same note in tune, cooldown satisfied
relative to the unchanged `last_trigger_time`).  The embedding is total,
so a failure never aborts the loop: the step always produces a
successor state. -/
theorem C7_dispatch_failure :
    (∀ (cfg : TrigCfg) (st : TrigState) (fr : FrameIn),
      (stepFrame cfg st fr).2 = true → fr.execOk = false →
      (stepFrame cfg st fr).1.last_trigger_time = st.last_trigger_time)
    ∧ (∀ (cfg : TrigCfg) (st : TrigState) (fr : FrameIn),
      (stepFrame cfg st fr).2 = true → fr.execOk = true →
      (stepFrame cfg st fr).1.last_trigger_time = fr.now)
    ∧ (∀ (cfg : TrigCfg) (st : TrigState) (fr : FrameIn),
      (stepFrame cfg st fr).2 = false →
      (stepFrame cfg st fr).1.last_trigger_time = st.last_trigger_time)
    ∧ (∀ (cfg : TrigCfg) (st : TrigState) (fr fr2 : FrameIn) (nm : String) (c c2 : ℚ),
      (stepFrame cfg st fr).2 = true → fr.execOk = false →
      fr.judgment = some (nm, c) → fr2.judgment = some (nm, c2) →
      |c2| ≤ cfg.tolerance_cents → cfg.retrigger_ms ≤ fr2.now - st.last_trigger_time →
      (stepFrame cfg (stepFrame cfg st fr).1 fr2).2 = true) := by
  refine ⟨?_, ?_, ?_, ?_⟩
  · intro cfg st fr h he
    obtain ⟨nm, c, hj, hc, hhold, hcool, hact, heq⟩ := stepFrame_emit_inv cfg st fr h
    rw [heq]
    simp [he]
  · intro cfg st fr h he
    obtain ⟨nm, c, hj, hc, hhold, hcool, hact, heq⟩ := stepFrame_emit_inv cfg st fr h
    rw [heq]
    simp [he]
  · intro cfg st fr h
    exact stepFrame_no_emit_time cfg st fr h
  · intro cfg st fr fr2 nm c c2 h he hj hj2 hc2 hcool2
    obtain ⟨nm2, c3, hj2b, hc3, hhold3, hcool3, hact3, heq⟩ := stepFrame_emit_inv cfg st fr h
    rw [hj] at hj2b
    have hpair : nm = nm2 ∧ c = c3 := by simpa using hj2b
    obtain ⟨hnm, -⟩ := hpair
    subst hnm
    have hst : (stepFrame cfg st fr).1 = ⟨some nm, nextCount st nm, st.last_trigger_time⟩ := by
      rw [heq]
      simp [he]
    rw [hst]
    have hhold2 : cfg.note_hold_frames ≤
        nextCount (⟨some nm, nextCount st nm, st.last_trigger_time⟩ : TrigState) nm := by
      rw [nextCount_same]
      omega
    rw [stepFrame_trigger cfg ⟨some nm, nextCount st nm, st.last_trigger_time⟩ fr2 nm c2
      hj2 hc2 hhold2 hcool2 hact3]

/-- Witness for C7: a concrete failed dispatch does not consume the
cooldown timestamp. -/
theorem C7_dispatch_failure_witness :
    (stepFrame ⟨35, 1, 500, fun nm => nm == ("A4")⟩ ⟨none, 0, -500⟩
        ⟨0, some (("A4"), 0), false⟩).1.last_trigger_time = -500 := by
  have hem : (stepFrame ⟨35, 1, 500, fun nm => nm == ("A4")⟩ ⟨none, 0, -500⟩
      ⟨0, some (("A4"), 0), false⟩).2 = true := by
    norm_num [stepFrame, nextCount]
  exact C7_dispatch_failure.1 _ _ _ hem rfl

theorem runSteps_append (cfg : TrigCfg) (st : TrigState) (l1 l2 : List FrameIn) :
    runSteps cfg st (l1 ++ l2) =
      ((runSteps cfg (runSteps cfg st l1).1 l2).1,
        (runSteps cfg st l1).2 ++ (runSteps cfg (runSteps cfg st l1).1 l2).2) := by
  induction l1 generalizing st with
  | nil => simp [runSteps]
  | cons fr rest ih => simp [runSteps, ih]

theorem runSteps_held (cfg : TrigCfg) (nm : String) (pre : List FrameIn) :
    ∀ (sc : Nat) (lt : ℚ),
      (∀ fr ∈ pre, ∃ c, fr.judgment = some (nm, c) ∧ |c| ≤ cfg.tolerance_cents) →
      (∀ fr ∈ pre, fr.now - lt < cfg.retrigger_ms) →
      runSteps cfg ⟨some nm, sc, lt⟩ pre =
        (⟨some nm, sc + pre.length, lt⟩, List.replicate pre.length false) := by
  induction pre with
  | nil =>
    intro sc lt _ _
    simp [runSteps]
  | cons fr rest ih =>
    intro sc lt hall hcool
    obtain ⟨c, hj, hc⟩ := hall fr (List.mem_cons_self _ _)
    have hstep : stepFrame cfg ⟨some nm, sc, lt⟩ fr = (⟨some nm, sc + 1, lt⟩, false) := by
      have h := stepFrame_no_trigger cfg ⟨some nm, sc, lt⟩ fr nm c hj hc
        (hcool fr (List.mem_cons_self _ _))
      rw [h, nextCount_same]
    have harith : sc + 1 + rest.length = sc + (rest.length + 1) := by omega
    have hrec := ih (sc + 1) lt
      (fun f hf => hall f (List.mem_cons_of_mem _ hf))
      (fun f hf => hcool f (List.mem_cons_of_mem _ hf))
    simp [runSteps, hstep, hrec, List.replicate_succ, harith]

/-- C6, confirmed: the trigger does not reset the counter.  From the
state a successful trigger at time `lt` leaves behind (`last_note = some
nm`, counter at least `note_hold_frames` — by `stepFrame_trigger` /
`stepFrame_emit_inv` exactly the post-trigger states), a run of frames
all judging the same note in tune emits nothing while `now - lt <
retrigger_ms` and emits exactly on the first frame with `now - lt ≥
retrigger_ms`, the counter having grown by one per frame throughout.
Concretely, with `note_hold_frames = 3`, `retrigger_ms = 500` and
in-tune "A4" frames every 100 ms, triggers fire at frame 3 and then
frame 8 (= 3 + 500/100). -/
theorem C6_cooldown_retrigger :
    (∀ (cfg : TrigCfg) (nm : String) (sc : Nat) (lt : ℚ) (pre : List FrameIn) (fb : FrameIn),
      cfg.note_hold_frames ≤ sc →
      cfg.hasAction nm = true →
      (∀ fr ∈ pre ++ [fb], ∃ c, fr.judgment = some (nm, c) ∧ |c| ≤ cfg.tolerance_cents) →
      (∀ fr ∈ pre, fr.now - lt < cfg.retrigger_ms) →
      cfg.retrigger_ms ≤ fb.now - lt →
      (runSteps cfg ⟨some nm, sc, lt⟩ (pre ++ [fb])).2
          = List.replicate pre.length false ++ [true]
        ∧ (runSteps cfg ⟨some nm, sc, lt⟩ (pre ++ [fb])).1.stable_count
          = sc + pre.length + 1)
    ∧ (runSteps ⟨35, 3, 500, fun nm => nm == ("A4")⟩ ⟨none, 0, -500⟩
        [⟨0, some (("A4"), 0), true⟩, ⟨100, some (("A4"), 0), true⟩,
          ⟨200, some (("A4"), 0), true⟩, ⟨300, some (("A4"), 0), true⟩,
          ⟨400, some (("A4"), 0), true⟩, ⟨500, some (("A4"), 0), true⟩,
          ⟨600, some (("A4"), 0), true⟩, ⟨700, some (("A4"), 0), true⟩]).2
      = [false, false, true, false, false, false, false, true] := by
  constructor
  · intro cfg nm sc lt pre fb hhold hact hall hcoolpre hcoolfb
    have hpre := runSteps_held cfg nm pre sc lt
      (fun f hf => hall f (List.mem_append_left _ hf))
      hcoolpre
    obtain ⟨c, hj, hc⟩ := hall fb (List.mem_append_right _ (List.mem_cons_self _ _))
    have hstep : stepFrame cfg ⟨some nm, sc + pre.length, lt⟩ fb =
        (⟨some nm, sc + pre.length + 1, if fb.execOk then fb.now else lt⟩, true) := by
      have h := stepFrame_trigger cfg ⟨some nm, sc + pre.length, lt⟩ fb nm c hj hc
        (by rw [nextCount_same]; omega) hcoolfb hact
      rw [h, nextCount_same]
    rw [runSteps_append, hpre]
    constructor
    · simp [runSteps, hstep]
    · simp [runSteps, hstep]
  · norm_num [runSteps, stepFrame, nextCount]

/-- Witness for C6: the general cooldown statement applied to a
one-frame run right at the cooldown boundary. -/
theorem C6_cooldown_retrigger_witness :
    (runSteps ⟨35, 1, 500, fun nm => nm == ("A4")⟩ ⟨some ("A4"), 1, 0⟩
        ([] ++ [⟨500, some (("A4"), 0), true⟩])).2 = List.replicate 0 false ++ [true]
    ∧ (runSteps ⟨35, 1, 500, fun nm => nm == ("A4")⟩ ⟨some ("A4"), 1, 0⟩
        ([] ++ [⟨500, some (("A4"), 0), true⟩])).1.stable_count = 1 + 0 + 1 := by
  have h := C6_cooldown_retrigger.1 ⟨35, 1, 500, fun nm => nm == ("A4")⟩ ("A4") 1 0 []
    ⟨500, some (("A4"), 0), true⟩ (by norm_num) (by decide)
    (by
      intro fr hfr
      simp only [List.nil_append, List.mem_singleton] at hfr
      subst hfr
      exact ⟨0, rfl, by norm_num⟩)
    (by intro fr hfr; simp at hfr)
    (by norm_num)
  have hlen : ([] : List FrameIn).length = 0 := rfl
  rw [hlen] at h
  exact h

/-! ### Frame buffer (claim C8) -/

theorem pushSample_length {α : Type} (W : Nat) (buf : List α) (s : α) :
    (pushSample W buf s).length = min (buf.length + 1) W := by
  unfold pushSample
  split
  · rename_i h
    simp only [List.length_drop, List.length_append, List.length_singleton] at *
    omega
  · rename_i h
    simp only [List.length_append, List.length_singleton] at *
    omega

theorem pushSample_tailWin {α : Type} (W : Nat) (pre : List α) (s : α) :
    pushSample W (tailWin W pre) s = tailWin W (pre ++ [s]) := by
  have hdr : pre.drop (pre.length - W) ++ [s] = (pre ++ [s]).drop (pre.length - W) :=
    (List.drop_append_of_le_length (by omega)).symm
  unfold pushSample tailWin
  rw [hdr]
  simp only [List.length_drop, List.length_append, List.length_singleton]
  rcases le_or_lt W pre.length with hW | hW
  · rw [if_pos (by omega), List.drop_drop]
    congr 1
    omega
  · rw [if_neg (by omega)]
    congr 1
    omega

theorem pushChunk_tailWin {α : Type} (W : Nat) (chunk : List α) :
    ∀ pre : List α, pushChunk W (tailWin W pre) chunk = tailWin W (pre ++ chunk) := by
  induction chunk with
  | nil => intro pre; simp [pushChunk]
  | cons c rest ih =>
    intro pre
    show pushChunk W (pushSample W (tailWin W pre) c) rest = _
    rw [pushSample_tailWin]
    rw [ih (pre ++ [c]), List.append_assoc]
    rfl

theorem runHops_eq {α : Type} (W H : Nat) (hH : 0 < H) :
    ∀ (n : Nat) (stream : List α), stream.length = n → ∀ (pre : List α),
      runHops W H (tailWin W pre) stream =
        (List.range (stream.length / H)).filterMap (fun k =>
          if W ≤ pre.length + (k + 1) * H then
            some (tailWin W (pre ++ stream.take ((k + 1) * H)))
          else none) := by
  intro n
  induction n using Nat.strong_induction_on with
  | _ n ih =>
    intro stream hlen pre
    subst hlen
    by_cases hsmall : stream.length < H
    · rw [runHops, dif_pos (Or.inr hsmall), Nat.div_eq_of_lt hsmall]
      simp
    · push_neg at hsmall
      rw [runHops, dif_neg (by omega)]
      rw [pushChunk_tailWin W (stream.take H) pre]
      have hdlen : (stream.drop H).length = stream.length - H := by simp
      have hrec := ih (stream.length - H) (by omega) (stream.drop H) hdlen (pre ++ stream.take H)
      rw [hrec, hdlen]
      have htakelen : (pre ++ stream.take H).length = pre.length + H := by
        simp only [List.length_append, List.length_take]
        omega
      have hwinlen : (tailWin W (pre ++ stream.take H)).length
          = pre.length + H - (pre.length + H - W) := by
        simp only [tailWin, List.length_drop, htakelen]
      have hdiv : stream.length / H = (stream.length - H) / H + 1 :=
        Nat.div_eq_sub_div hH hsmall
      have hfg : (fun k => if W ≤ (pre ++ stream.take H).length + (k + 1) * H then
            some (tailWin W ((pre ++ stream.take H) ++ (stream.drop H).take ((k + 1) * H)))
          else none)
          = (fun k => if W ≤ pre.length + (k + 1 + 1) * H then
            some (tailWin W (pre ++ stream.take ((k + 1 + 1) * H)))
          else none) := by
        funext k
        have h1 : (k + 1 + 1) * H = H + (k + 1) * H := by ring
        have h3 : pre ++ stream.take ((k + 1 + 1) * H)
            = (pre ++ stream.take H) ++ (stream.drop H).take ((k + 1) * H) := by
          rw [List.append_assoc]
          congr 1
          rw [h1, List.take_add]
        rw [htakelen, h3, h1, Nat.add_assoc]
      rw [hfg, hdiv, List.range_succ_eq_map, List.filterMap_cons]
      by_cases hW0 : W ≤ pre.length + H
      · rw [if_neg (by omega)]
        simp only [zero_add, one_mul, if_pos hW0, List.filterMap_map]
        rw [List.singleton_append]
        congr 1
      · rw [if_pos (by omega)]
        simp only [zero_add, one_mul, if_neg hW0, List.filterMap_map]
        rw [List.nil_append]
        congr 1

/-- C8, confirmed: (1) the sliding buffer never exceeds `window_size`
samples; (2) pushing a sample into a buffer holding the most recent `W`
received samples again leaves the most recent `W` of the extended
stream, so the buffer always holds the most recently received samples
with the oldest excess discarded; (3) the consumption loop analyzes
exactly the windows of `hopWindows`: one analysis per `hop_size` newly
received samples, and only once at least `window_size` samples have ever
been received; (4) every analyzed window has exactly `window_size`
elements and consists of the most recent `window_size` samples at some
multiple of `hop_size`. -/
theorem C8_frame_buffer :
    (∀ (W : Nat) (buf : List ℚ) (s : ℚ), (pushSample W buf s).length ≤ W)
    ∧ (∀ (W : Nat) (pre : List ℚ) (s : ℚ),
        pushSample W (tailWin W pre) s = tailWin W (pre ++ [s]))
    ∧ (∀ (W H : Nat) (stream : List ℚ), 0 < H →
        runHops W H ([] : List ℚ) stream = hopWindows W H stream)
    ∧ (∀ (W H : Nat) (stream : List ℚ), 0 < H →
        ∀ w ∈ runHops W H ([] : List ℚ) stream, w.length = W ∧
          ∃ k, 0 < k ∧ k * H ≤ stream.length ∧ W ≤ k * H ∧
            w = tailWin W (stream.take (k * H))) := by
  have hmain : ∀ (W H : Nat) (stream : List ℚ), 0 < H →
      runHops W H ([] : List ℚ) stream = hopWindows W H stream := by
    intro W H stream hH
    have h0 : tailWin W ([] : List ℚ) = [] := by simp [tailWin]
    have h := runHops_eq W H hH stream.length stream rfl []
    rw [h0] at h
    rw [h]
    simp [hopWindows]
  refine ⟨?_, ?_, hmain, ?_⟩
  · intro W buf s
    rw [pushSample_length]
    omega
  · intro W pre s
    exact pushSample_tailWin W pre s
  · intro W H stream hH w hw
    rw [hmain W H stream hH] at hw
    unfold hopWindows at hw
    rw [List.mem_filterMap] at hw
    obtain ⟨k, hkmem, hk⟩ := hw
    rw [List.mem_range] at hkmem
    by_cases hcond : W ≤ (k + 1) * H
    · rw [if_pos hcond] at hk
      injection hk with hk
      have hkH : (k + 1) * H ≤ stream.length :=
        (Nat.le_div_iff_mul_le hH).mp (by omega)
      have htl : (stream.take ((k + 1) * H)).length = (k + 1) * H := by
        rw [List.length_take]
        omega
      constructor
      · rw [← hk]
        simp only [tailWin, List.length_drop, htl]
        omega
      · exact ⟨k + 1, by omega, hkH, hcond, hk.symm⟩
    · rw [if_neg hcond] at hk
      exact Option.noConfusion hk

/-- Witness for C8: the schedule equality at a concrete window, hop and
stream. -/
theorem C8_frame_buffer_witness :
    runHops 4 2 ([] : List ℚ) [1, 2, 3, 4, 5, 6] = hopWindows 4 2 [1, 2, 3, 4, 5, 6] :=
  C8_frame_buffer.2.2.1 4 2 [1, 2, 3, 4, 5, 6] (by norm_num)

/-! ### Key-sequence parsing (claim C10) -/

theorem isMod_not_bad (t : List Char) (h : isModTok t = true) : isBadTok t = false := by
  unfold isModTok modKeyOf at h
  unfold isBadTok
  rcases hcl : classifyTok t with k | k | l <;> simp [hcl] at h ⊢

theorem isMod_main_none (t : List Char) (h : isModTok t = true) : mainKeyOf t = none := by
  unfold isModTok modKeyOf at h
  unfold mainKeyOf
  rcases hcl : classifyTok t with k | k | l <;> simp [hcl] at h ⊢

theorem getLast?_cons_or {α : Type} (k : α) (l : List α) (mk : Option α) :
    ((k :: l).getLast?).or mk = (l.getLast?).or (some k) := by
  cases h : l.getLast? <;> simp [List.getLast?_cons, h]

theorem procLoop_ok (ts : List (List Char)) :
    ∀ (mods : List RKey) (mk : Option RKey),
      (∀ t ∈ ts, isBadTok t = false) →
      procLoop mods mk ts = Except.ok (mods ++ ts.filterMap modKeyOf,
        ((ts.filterMap mainKeyOf).getLast?).or mk) := by
  induction ts with
  | nil =>
    intro mods mk _
    simp [procLoop]
  | cons t rest ih =>
    intro mods mk hbad
    have hb := hbad t (List.mem_cons_self _ _)
    have hrest : ∀ u ∈ rest, isBadTok u = false :=
      fun u hu => hbad u (List.mem_cons_of_mem _ hu)
    rcases hcl : classifyTok t with k | k | l
    · have hmod : modKeyOf t = some k := by simp [modKeyOf, hcl]
      have hmain : mainKeyOf t = none := by simp [mainKeyOf, hcl]
      simp only [procLoop, hcl]
      rw [ih (mods ++ [k]) mk hrest]
      simp [hmod, hmain, List.filterMap_cons, List.append_assoc]
    · have hmod : modKeyOf t = none := by simp [modKeyOf, hcl]
      have hmain : mainKeyOf t = some k := by simp [mainKeyOf, hcl]
      simp only [procLoop, hcl]
      rw [ih mods (some k) hrest]
      simp [hmod, hmain, List.filterMap_cons, getLast?_cons_or]
    · exact absurd hb (by simp [isBadTok, hcl])

theorem procLoop_err (ts : List (List Char)) :
    ∀ (mods : List RKey) (mk : Option RKey),
      (∃ t ∈ ts, isBadTok t = true) →
      ∃ e, procLoop mods mk ts = Except.error e := by
  induction ts with
  | nil =>
    rintro mods mk ⟨t, ht, -⟩
    exact absurd ht (List.not_mem_nil t)
  | cons t rest ih =>
    rintro mods mk ⟨u, hu, hbu⟩
    rcases hcl : classifyTok t with k | k | l
    · rcases List.mem_cons.mp hu with rfl | hu2
      · exact absurd hbu (by simp [isBadTok, hcl])
      · obtain ⟨e, he⟩ := ih (mods ++ [k]) mk ⟨u, hu2, hbu⟩
        exact ⟨e, by simp only [procLoop, hcl]; exact he⟩
    · rcases List.mem_cons.mp hu with rfl | hu2
      · exact absurd hbu (by simp [isBadTok, hcl])
      · obtain ⟨e, he⟩ := ih mods (some k) ⟨u, hu2, hbu⟩
        exact ⟨e, by simp only [procLoop, hcl]; exact he⟩
    · exact ⟨("Unknown key token: ") ++ String.mk l, by simp [procLoop, hcl]⟩

theorem clicksOf_append (a b : List KeyEvent) :
    clicksOf (a ++ b) = clicksOf a ++ clicksOf b := by
  simp [clicksOf]

theorem clicksOf_downs (l : List RKey) : clicksOf (l.map KeyEvent.down) = [] := by
  induction l with
  | nil => simp [clicksOf]
  | cons a rest _ => simp [clicksOf]

theorem clicksOf_ups (l : List RKey) : clicksOf (l.map KeyEvent.up) = [] := by
  induction l with
  | nil => simp [clicksOf]
  | cons a rest _ => simp [clicksOf]

theorem clicksOf_keyEventsOf (mods : List RKey) (k : RKey) :
    clicksOf (keyEventsOf mods k) = [k] := by
  unfold keyEventsOf
  rw [clicksOf_append, clicksOf_append, clicksOf_downs, clicksOf_ups]
  simp [clicksOf]

/-- C10, confirmed: for every key-sequence string all of whose tokens
are recognized and which contains more than one non-modifier token,
`send_keys` succeeds and clicks only the key of the LAST non-modifier
token, silently discarding the earlier main keys; and it returns an
error exactly when the token list is empty (empty or all-"+"/whitespace
sequence), contains an unrecognized token (necessarily multi-character,
since empty tokens are filtered out and any single character is
accepted), or consists of modifier tokens only. -/
theorem C10_send_keys :
    ∀ sequence : String,
      ((∀ t ∈ tokenizeKeys sequence, isBadTok t = false) →
        2 ≤ ((tokenizeKeys sequence).filterMap mainKeyOf).length →
        ∃ mods k, send_keys sequence = Except.ok (mods, k)
          ∧ ((tokenizeKeys sequence).filterMap mainKeyOf).getLast? = some k
          ∧ clicksOf (keyEventsOf mods k) = [k])
      ∧ ((∃ e, send_keys sequence = Except.error e) ↔
          (tokenizeKeys sequence = []
            ∨ (∃ t ∈ tokenizeKeys sequence, isBadTok t = true)
            ∨ (∀ t ∈ tokenizeKeys sequence, isModTok t = true))) := by
  intro sequence
  constructor
  · intro hbad h2
    have hne : tokenizeKeys sequence ≠ [] := by
      intro h0
      rw [h0] at h2
      simp at h2
    have hok := procLoop_ok (tokenizeKeys sequence) [] none hbad
    have hlast : ∃ k, ((tokenizeKeys sequence).filterMap mainKeyOf).getLast? = some k := by
      cases hgl : ((tokenizeKeys sequence).filterMap mainKeyOf).getLast? with
      | some k => exact ⟨k, rfl⟩
      | none =>
        rw [List.getLast?_eq_none_iff] at hgl
        rw [hgl] at h2
        simp at h2
    obtain ⟨k, hk⟩ := hlast
    refine ⟨[] ++ (tokenizeKeys sequence).filterMap modKeyOf, k, ?_, hk,
      clicksOf_keyEventsOf _ _⟩
    unfold send_keys
    rw [if_neg hne, hok, hk]
    rfl
  · constructor
    · rintro ⟨e, he⟩
      by_cases h0 : tokenizeKeys sequence = []
      · exact Or.inl h0
      · by_cases hbad : ∃ t ∈ tokenizeKeys sequence, isBadTok t = true
        · exact Or.inr (Or.inl hbad)
        · push_neg at hbad
          have hbad2 : ∀ t ∈ tokenizeKeys sequence, isBadTok t = false := by
            intro t ht
            have := hbad t ht
            simpa using this
          have hok := procLoop_ok (tokenizeKeys sequence) [] none hbad2
          unfold send_keys at he
          rw [if_neg h0, hok] at he
          cases hgl : ((tokenizeKeys sequence).filterMap mainKeyOf).getLast? with
          | some k =>
            rw [hgl] at he
            simp at he
          | none =>
            refine Or.inr (Or.inr ?_)
            intro t ht
            rw [List.getLast?_eq_none_iff] at hgl
            have hm : mainKeyOf t = none := (List.filterMap_eq_nil_iff.mp hgl) t ht
            have hb := hbad2 t ht
            rcases hcl : classifyTok t with k | k | l
            · simp [isModTok, modKeyOf, hcl]
            · exact absurd hm (by simp [mainKeyOf, hcl])
            · exact absurd hb (by simp [isBadTok, hcl])
    · rintro (h0 | hbad | hall)
      · exact ⟨("Empty key sequence"), by unfold send_keys; rw [if_pos h0]⟩
      · have hne : tokenizeKeys sequence ≠ [] := by
          rintro h0
          rw [h0] at hbad
          obtain ⟨t, ht, -⟩ := hbad
          exact absurd ht (List.not_mem_nil t)
        obtain ⟨e, he⟩ := procLoop_err (tokenizeKeys sequence) [] none hbad
        refine ⟨e, ?_⟩
        unfold send_keys
        rw [if_neg hne, he]
      · by_cases h0 : tokenizeKeys sequence = []
        · exact ⟨("Empty key sequence"), by unfold send_keys; rw [if_pos h0]⟩
        · have hbad2 : ∀ t ∈ tokenizeKeys sequence, isBadTok t = false :=
            fun t ht => isMod_not_bad t (hall t ht)
          have hmn : ∀ t ∈ tokenizeKeys sequence, mainKeyOf t = none :=
            fun t ht => isMod_main_none t (hall t ht)
          have hok := procLoop_ok (tokenizeKeys sequence) [] none hbad2
          have hnil : (tokenizeKeys sequence).filterMap mainKeyOf = [] :=
            List.filterMap_eq_nil_iff.mpr hmn
          refine ⟨("No main key in sequence"), ?_⟩
          unfold send_keys
          rw [if_neg h0, hok, hnil]
          rfl

/-- Witness for C10: the sequence "A+B" parses to two recognized
non-modifier tokens; `send_keys` succeeds and clicks only the layout key
of the lowercased last token. -/
theorem C10_send_keys_witness :
    ∃ mods k, send_keys ("A+B") = Except.ok (mods, k)
      ∧ ((tokenizeKeys ("A+B")).filterMap mainKeyOf).getLast? = some k
      ∧ clicksOf (keyEventsOf mods k) = [k] :=
  (C10_send_keys ("A+B")).1 (by decide) (by decide)
